import Mathlib

/-!
Formal model of the `npm-web-login` package (`src/index.ts`).

The source is a single class `WebLoginManager` holding a cookie array
`this.cookies : ICookie[]` and three operations:

* `getCookies()` (lines 103-116): renders the jar into a `cookie` header
  string and prunes entries whose value became empty;
* `updateCookies(response)` (lines 123-157): parses every raw `set-cookie`
  header via JavaScript `split` calls and inserts/overwrites jar entries;
* `fetch(path, options, skipLogin)` (lines 45-64) and `login()`
  (lines 69-98): the request/login orchestration.

JavaScript strings are modelled as Lean `String`/`List Char`; the helper
functions `stripLead`, `afterFirst`, `takeUntil` reproduce the semantics of
the `split(sep)[0]` / `split(sep)[1]` idioms used by the source
(`split(sep)[1]` is the text between the first and second occurrence of
`sep`, and is `undefined` - modelled by `Option.none` - when `sep` does not
occur).  `Date.parse`/`new Date(...).valueOf()` is an oracle parameter
`pd : String -> Int` (epoch milliseconds); `Date.now()` is a parameter
`now : Int`.  A JavaScript exception inside `updateCookies` is modelled by
the Boolean component of its result being `false`.
-/

set_option maxHeartbeats 1000000

namespace WebLogin

/-- The `ICookie` record of src/index.ts lines 3-7. -/
structure ICookie where
  name : String
  value : String
  expires : Int
deriving Repr, DecidableEq

/-- The `IWebLoginOptions` record of src/index.ts lines 9-16
(`middlewaretokenName` is optional). -/
structure IWebLoginOptions where
  baseURL : String
  username : String
  password : String
  loginPath : String
  sessionidCookieName : String
  middlewaretokenName : Option String
deriving Repr, DecidableEq

/-- `stripLead pat s` returns `some r` with `s = pat ++ r` when `pat` leads
`s`, and `none` otherwise. -/
def stripLead : List Char → List Char → Option (List Char)
  | [], s => some s
  | _ :: _, [] => none
  | p :: ps, c :: cs => if p = c then stripLead ps cs else none

/-- `needle` occurs at the very start of `hay`. -/
def leadsWith (needle hay : List Char) : Bool :=
  (stripLead needle hay).isSome

/-- Substring occurrence test, the model of JavaScript
`String.prototype.includes` used at src/index.ts line 51. -/
def listIncludes : List Char → List Char → Bool
  | [], needle => needle.isEmpty
  | h :: t, needle => leadsWith needle (h :: t) || listIncludes t needle

/-- `s.includes(sub)` on strings. -/
def strIncludes (s sub : String) : Bool :=
  listIncludes s.toList sub.toList

/-- Remainder of `s` after the first occurrence of `sep`
(JavaScript `s.split(sep)` dropping element 0), `none` when `sep` does not
occur. -/
def afterFirst (sep : List Char) : List Char → Option (List Char)
  | [] => stripLead sep []
  | c :: rest =>
    match stripLead sep (c :: rest) with
    | some r => some r
    | none => afterFirst sep rest

/-- Text of `s` before the first occurrence of `sep`
(JavaScript `s.split(sep)[0]`); all of `s` when `sep` does not occur. -/
def takeUntil (sep : List Char) : List Char → List Char
  | [] => []
  | c :: rest =>
    if (stripLead sep (c :: rest)).isSome then []
    else c :: takeUntil sep rest

/-- JavaScript `String.prototype.trim` on a character list. -/
def trimL (s : List Char) : List Char :=
  ((s.dropWhile Char.isWhitespace).reverse.dropWhile Char.isWhitespace).reverse

def eqChars : List Char := ['=']

def semiChars : List Char := [';']

def expiresChars : List Char := "expires=".toList

/-- Parsing of one raw `set-cookie` value, src/index.ts lines 133-143:
`name = cookie.split("=")[0].trim()`,
`value = cookie.split("=")[1].split(";")[0].trim()`,
`expires = new Date(cookie.split("expires=")[1].split(";")[0].trim()).valueOf()`.
`none` models the `TypeError` thrown when `split(...)[1]` is `undefined`
(no `=` at all, or no `expires=` segment). -/
def parseSetCookie (pd : String → Int) (raw : String) : Option ICookie :=
  let l := raw.toList
  let nm := String.mk (trimL (takeUntil eqChars l))
  match afterFirst eqChars l with
  | none => none
  | some v1 =>
    let vl := String.mk (trimL (takeUntil semiChars (takeUntil eqChars v1)))
    match afterFirst expiresChars l with
    | none => none
    | some e1 =>
      some { name := nm, value := vl,
             expires := pd (String.mk (trimL (takeUntil semiChars (takeUntil expiresChars e1)))) }

/-- Jar update for one parsed cookie, src/index.ts lines 144-155: the first
entry with the same name is overwritten in place (value and expiry),
otherwise the cookie is pushed at the end. -/
def insertCookie : List ICookie → ICookie → List ICookie
  | [], c => [c]
  | old :: rest, c =>
    if old.name = c.name then
      { old with value := c.value, expires := c.expires } :: rest
    else old :: insertCookie rest c

/-- The `cookies.forEach(...)` loop of `updateCookies`
(src/index.ts lines 132-156) over the raw `set-cookie` values.  The Boolean
is `false` when a raw value failed to parse: the loop throws there, keeping
the updates made so far and aborting the rest. -/
def updateCookiesList (pd : String → Int) : List ICookie → List String → List ICookie × Bool
  | jar, [] => (jar, true)
  | jar, raw :: rest =>
    match parseSetCookie pd raw with
    | none => (jar, false)
    | some c => updateCookiesList pd (insertCookie jar c) rest

/-- `updateCookies(response)`, src/index.ts lines 123-157.  The argument is
`response.headers.raw()["set-cookie"]`: `none` when the response carries no
`set-cookie` header (the early `return` at line 128). -/
def updateCookies (pd : String → Int) (jar : List ICookie) :
    Option (List String) → List ICookie × Bool
  | none => (jar, true)
  | some raws => updateCookiesList pd jar raws

/-- `getCookies()`, src/index.ts lines 103-116: every entry whose expiry is
at or before `now` gets its value cleared, every entry (cleared or not) is
rendered as `name=value`, the rendered pieces are joined with `"; "`, and
entries with an empty value are dropped from the jar.  Returns the header
string and the new jar. -/
def getCookies (now : Int) (jar : List ICookie) : String × List ICookie :=
  let updated := jar.map (fun c => if now ≥ c.expires then { c with value := "" } else c)
  (String.intercalate "; " (updated.map (fun c => c.name ++ "=" ++ c.value)),
   updated.filter (fun c => c.value != ""))

/-- Modelled from the spec: `hasActive(name)` is true when the active set
left by `computeHeaderValue()` (our `getCookies`) contains a cookie with the
given name.  The source has no such function; `fetch` uses a substring test
on the header string instead (src/index.ts line 51). -/
def hasActive (now : Int) (jar : List ICookie) (nm : String) : Bool :=
  ((getCookies now jar).2).any (fun c => c.name == nm)

/-- An outgoing request as assembled by `fetch` (src/index.ts lines 57-59):
URL, method, body, the `cookie` header, the redirect mode and the
content-type header. -/
structure Req where
  url : String
  method : String
  body : Option String
  cookie : String
  redirect : String
  contentType : Option String
deriving Repr, DecidableEq

/-- What the model needs of a `node-fetch` response: the raw `set-cookie`
header values (`none` when the header is absent) and the body text. -/
structure Resp where
  setCookie : Option (List String)
  text : String
deriving Repr, DecidableEq

/-- JavaScript template-literal stringification of
`this.middlewaretoken : string | undefined` (src/index.ts line 93):
`undefined` interpolates as the literal text `"undefined"`. -/
def jsStr : Option String → String
  | none => "undefined"
  | some s => s

/-- JavaScript truthiness of `this.middlewaretoken`
(src/index.ts line 73): `undefined` and `""` are falsy. -/
def truthy : Option String → Bool
  | none => false
  | some s => s != ""

/-- JavaScript `\w` character class. -/
def isWordChar (c : Char) : Bool :=
  c.isAlpha || c.isDigit || c == '_'

/-- JavaScript `\S` character class. -/
def isNonSpace (c : Char) : Bool :=
  !c.isWhitespace

/-- One attempt of the login-page regular expression
`<tokenName>\S value=\S(\w+)` (src/index.ts line 81) at the current
position: the literal token name, one non-space character, the literal
` value=`, one non-space character, then a non-empty capture of word
characters. -/
def matchPattern (nm : List Char) (s : List Char) : Option String :=
  match stripLead nm s with
  | none => none
  | some s1 =>
    match s1 with
    | [] => none
    | q1 :: s2 =>
      if isNonSpace q1 then
        match stripLead (" value=".toList) s2 with
        | none => none
        | some s3 =>
          match s3 with
          | [] => none
          | q2 :: s4 =>
            if isNonSpace q2 then
              let w := s4.takeWhile isWordChar
              if w.isEmpty then none else some (String.mk w)
            else none
      else none

/-- Leftmost match of the login-page pattern (`RegExp.exec`,
src/index.ts line 82). -/
def findMatch (nm : List Char) : List Char → Option String
  | [] => none
  | c :: rest =>
    match matchPattern nm (c :: rest) with
    | some t => some t
    | none => findMatch nm rest

/-- Token extraction of src/index.ts lines 81-84: the first capture of the
pattern, or `""` when there is no match. -/
def extractToken (nm : String) (body : String) : String :=
  (findMatch nm.toList body.toList).getD ""

/-- Result of a `fetch` call with `skipLogin = true`. -/
structure FetchOut where
  resp : Resp
  jar : List ICookie
  ok : Bool
  trace : List Req
deriving Repr, DecidableEq

/-- `fetch(path, options, true)` (src/index.ts lines 45-64 with the login
check skipped): read the header string from the jar (line 57, pruning it),
issue the request, merge the response's `set-cookie` values.  `ok` is false
when `updateCookies` threw; `trace` records the issued request. -/
def fetchSkip (cfg : IWebLoginOptions) (tp : Req → Resp) (pd : String → Int) (now : Int)
    (jar : List ICookie) (path : String) (method : String) (body : Option String)
    (redirect : String) (ctype : Option String) : FetchOut :=
  let g := getCookies now jar
  let req : Req := ⟨cfg.baseURL ++ path, method, body, g.1, redirect, ctype⟩
  let res := tp req
  let m := updateCookies pd g.2 res.setCookie
  ⟨res, m.1, m.2, [req]⟩

/-- Result of a `login()` call. -/
structure LoginOut where
  jar : List ICookie
  ok : Bool
  trace : List Req
deriving Repr, DecidableEq

/-- The login POST of src/index.ts lines 87-97, body
`${this.middlewaretoken}=${token}&username=${this.username}&password=${this.password}`. -/
def loginPost (cfg : IWebLoginOptions) (tp : Req → Resp) (pd : String → Int) (now : Int)
    (jar : List ICookie) (token : String) : LoginOut :=
  let body := jsStr cfg.middlewaretokenName ++ "=" ++ token ++ "&username=" ++
    cfg.username ++ "&password=" ++ cfg.password
  let f := fetchSkip cfg tp pd now jar cfg.loginPath "POST" (some body) "manual"
    (some "application/x-www-form-urlencoded")
  ⟨f.jar, f.ok, f.trace⟩

/-- `login()`, src/index.ts lines 69-98: when the token name is truthy,
GET the login page (through `fetch` with `skipLogin = true`), extract the
token, then POST the credentials; otherwise only the POST happens, with the
token left `""`. -/
def login (cfg : IWebLoginOptions) (tp : Req → Resp) (pd : String → Int) (now : Int)
    (jar : List ICookie) : LoginOut :=
  if truthy cfg.middlewaretokenName then
    let f1 := fetchSkip cfg tp pd now jar cfg.loginPath "GET" none "follow" none
    if f1.ok then
      let token := extractToken (jsStr cfg.middlewaretokenName) f1.resp.text
      let post := loginPost cfg tp pd now f1.jar token
      ⟨post.jar, post.ok, f1.trace ++ post.trace⟩
    else ⟨f1.jar, false, f1.trace⟩
  else loginPost cfg tp pd now jar ""

/-- Result of a `fetch` call with `skipLogin = false`.  `resp` is `none`
when the call rejected before issuing the main request. -/
structure MainOut where
  resp : Option Resp
  jar : List ICookie
  ok : Bool
  trace : List Req
deriving Repr, DecidableEq

/-- `fetch(path, options, false)` (src/index.ts lines 45-64): read the
header string (line 48, pruning the jar), log in when it does not contain
`sessionidCookieName` as a substring (line 51), then issue the main request
through the `skipLogin` path (lines 57-63). -/
def fetchMain (cfg : IWebLoginOptions) (tp : Req → Resp) (pd : String → Int) (now : Int)
    (jar : List ICookie) (path : String) (method : String) (body : Option String)
    (redirect : String) (ctype : Option String) : MainOut :=
  let g := getCookies now jar
  if strIncludes g.1 cfg.sessionidCookieName then
    let f := fetchSkip cfg tp pd now g.2 path method body redirect ctype
    ⟨some f.resp, f.jar, f.ok, f.trace⟩
  else
    let lg := login cfg tp pd now g.2
    if lg.ok then
      let f := fetchSkip cfg tp pd now lg.jar path method body redirect ctype
      ⟨some f.resp, f.jar, f.ok, lg.trace ++ f.trace⟩
    else ⟨none, lg.jar, false, lg.trace⟩

/-- A jar-level operation: a merge of raw `set-cookie` values, or a header
read (which prunes). -/
inductive JarOp where
  | merge (raws : List String)
  | read (now : Int)
deriving Repr

/-- Apply one jar operation. -/
def applyOp (pd : String → Int) (jar : List ICookie) : JarOp → List ICookie
  | .merge raws => (updateCookiesList pd jar raws).1
  | .read now => (getCookies now jar).2

/-- Run a sequence of jar operations from the empty jar. -/
def runOps (pd : String → Int) (ops : List JarOp) : List ICookie :=
  ops.foldl (applyOp pd) []

/-- The names stored in a jar, in order. -/
def namesOf (jar : List ICookie) : List String :=
  jar.map (fun c => c.name)

/-- `this.cookies.find(c => c.name === name)` (src/index.ts line 144). -/
def findCk (n : String) (J : List ICookie) : Option ICookie :=
  J.find? (fun c => c.name == n)

/-- All raw `set-cookie` values parsed in order; `none` when any of them
fails to parse. -/
def parseAll (pd : String → Int) : List String → Option (List ICookie)
  | [] => some []
  | r :: rest =>
    match parseSetCookie pd r with
    | none => none
    | some c => (parseAll pd rest).map (fun cs => c :: cs)

/-- Projection of a request to the parts the handshake claims constrain
(everything except the `cookie` header and content type). -/
def reqKey (r : Req) : String × String × Option String × String :=
  (r.url, r.method, r.body, r.redirect)

/-- A response is well formed for the date oracle `pd` when each of its raw
`set-cookie` values parses. -/
def wfResp (pd : String → Int) (r : Resp) : Prop :=
  ∀ raws, r.setCookie = some raws → ∀ raw ∈ raws, (parseSetCookie pd raw).isSome

/-- A fixed date oracle for concrete evaluations. -/
def pd0 : String → Int := fun _ => 0

/-- A transport whose responses set no cookies and have an empty body. -/
def tpNone : Req → Resp := fun _ => ⟨none, ""⟩

/-- C1: at read time 10, the jar holding only a `sessionid` cookie that
expired at time 5 has no active `sessionid` cookie, yet the `fetch` call
with the login check enabled issues no login handshake: its trace is
exactly the single main request.  The expired cookie is still rendered as
`sessionid=` in the header string that the substring check of
src/index.ts line 51 inspects, so the re-login is skipped on this call
(contrary to the claim that the handshake re-runs on the first request
after expiry). -/
theorem fetch_skips_login_after_expiry :
    hasActive 10 [⟨"sessionid", "abc", 5⟩] "sessionid" = false ∧
    fetchMain ⟨"http://h", "u", "p", "/login", "sessionid", some "csrfmiddlewaretoken"⟩
        tpNone pd0 10 [⟨"sessionid", "abc", 5⟩] "/path" "GET" none "follow" none =
      ⟨some ⟨none, ""⟩, [], true, [⟨"http://h/path", "GET", none, "", "follow", none⟩]⟩ :=
  ⟨rfl, rfl⟩

/-- C2: reading the jar holding only a cookie `a` that expired at time 5 at
read time 10 returns the non-empty header string `"a="` - the expired
cookie's name is NOT excluded from the returned string (its value is merely
cleared), contrary to the claim; the removal from the jar by that same read
does hold (the resulting jar is empty). -/
theorem getCookies_renders_expired_cookie :
    getCookies 10 [⟨"a", "v", 5⟩] = ("a=", []) ∧ ("a=" : String) ≠ "" :=
  ⟨rfl, by decide⟩

/-- C3: with `middlewaretokenName` omitted, `login()` issues no GET (the
trace holds exactly one request) but the POST body is
`"undefined=&username=u&password=p"` - the JavaScript template literal
stringifies the `undefined` token name into a literal `undefined=` form
field - and not the claimed `"username=u&password=p"`. -/
theorem login_posts_undefined_field :
    login ⟨"http://h", "u", "p", "/login", "sessionid", none⟩ tpNone pd0 0 [] =
      ⟨[], true, [⟨"http://h/login", "POST", some "undefined=&username=u&password=p", "",
        "manual", some "application/x-www-form-urlencoded"⟩]⟩ ∧
    ("undefined=&username=u&password=p" : String) ≠ "username=u&password=p" :=
  ⟨rfl, by decide⟩

/-- C4 counterexample: for the raw header `"a=b=c; expires=X"` the substring
between the first `=` and the first following `;` is `"b=c"`, but the code
stores value `"b"`: `split("=")[1]` truncates the value at the second `=`. -/
theorem parse_value_eq_cex :
    (parseSetCookie pd0 "a=b=c; expires=X").map ICookie.value = some "b" ∧
    (some "b" : Option String) ≠ some "b=c" :=
  ⟨rfl, by decide⟩

lemma afterFirst_none_of_not_includes (sep : List Char) (s : List Char)
    (h : listIncludes s sep = false) : afterFirst sep s = none := by
  induction s with
  | nil =>
    cases sep with
    | nil => simp [listIncludes, List.isEmpty] at h
    | cons p ps => rfl
  | cons c rest ih =>
    have h2 : leadsWith sep (c :: rest) = false ∧ listIncludes rest sep = false := by
      simpa [listIncludes] using h
    have hnone : stripLead sep (c :: rest) = none := by
      have h3 := h2.1
      unfold leadsWith at h3
      cases hsl : stripLead sep (c :: rest) with
      | none => rfl
      | some r => rw [hsl] at h3; cases h3
    simp [afterFirst, hnone, ih h2.2]

lemma parse_none_of_no_expires (pd : String → Int) (raw : String)
    (h : listIncludes raw.toList expiresChars = false) :
    parseSetCookie pd raw = none := by
  have he := afterFirst_none_of_not_includes expiresChars raw.toList h
  simp only [String.toList] at he
  unfold parseSetCookie
  cases hv : afterFirst eqChars raw.data <;> simp [hv, he]

/-- C5: a raw `set-cookie` value with no `expires=` segment anywhere makes
the whole merge call fail (the `split("expires=")[1]` of src/index.ts
line 140 is `undefined` and the subsequent `.split` throws), regardless of
the jar, of where the malformed value sits in the input sequence, and of
the well-formed entries around it. -/
theorem updateCookies_fails_without_expires (pd : String → Int) (jar : List ICookie)
    (raws : List String) (raw : String) (h1 : raw ∈ raws)
    (h2 : listIncludes raw.toList expiresChars = false) :
    (updateCookiesList pd jar raws).2 = false := by
  revert h1
  induction raws generalizing jar with
  | nil => intro h1; cases h1
  | cons r rest ih =>
    intro h1
    rcases List.mem_cons.mp h1 with hr | hr
    · subst hr
      simp [updateCookiesList, parse_none_of_no_expires pd raw h2]
    · cases hp : parseSetCookie pd r with
      | none => simp [updateCookiesList, hp]
      | some c => simpa [updateCookiesList, hp] using ih (insertCookie jar c) hr

/-- C5 witness: merging `["a=b"]` (no `expires=` segment) into the empty
jar fails. -/
theorem updateCookies_fails_without_expires_witness :
    (updateCookiesList pd0 [] ["a=b"]).2 = false :=
  updateCookies_fails_without_expires pd0 [] ["a=b"] "a=b" (by decide) (by decide)

lemma namesOf_cons (o : ICookie) (rest : List ICookie) :
    namesOf (o :: rest) = o.name :: namesOf rest := rfl

lemma namesOf_insertCookie_mem_imp (J : List ICookie) (c : ICookie) (x : String)
    (h : x ∈ namesOf (insertCookie J c)) : x ∈ namesOf J ∨ x = c.name := by
  induction J with
  | nil => simpa [insertCookie, namesOf] using h
  | cons o rest ih =>
    rw [insertCookie] at h
    by_cases ho : o.name = c.name
    · rw [if_pos ho, namesOf_cons] at h
      rcases List.mem_cons.mp h with h1 | h2
      · exact Or.inl (by simp [namesOf_cons, h1])
      · exact Or.inl (by simp [namesOf_cons]; exact Or.inr h2)
    · rw [if_neg ho, namesOf_cons] at h
      rcases List.mem_cons.mp h with h1 | h2
      · exact Or.inl (by simp [namesOf_cons, h1])
      · rcases ih h2 with h3 | h4
        · exact Or.inl (by simp [namesOf_cons]; exact Or.inr h3)
        · exact Or.inr h4

lemma nodup_insertCookie (J : List ICookie) (c : ICookie)
    (h : (namesOf J).Nodup) : (namesOf (insertCookie J c)).Nodup := by
  induction J with
  | nil => simp [insertCookie, namesOf]
  | cons o rest ih =>
    rw [namesOf_cons, List.nodup_cons] at h
    rw [insertCookie]
    by_cases ho : o.name = c.name
    · rw [if_pos ho, namesOf_cons, List.nodup_cons]
      exact ⟨h.1, h.2⟩
    · rw [if_neg ho, namesOf_cons, List.nodup_cons]
      refine ⟨fun hx => ?_, ih h.2⟩
      rcases namesOf_insertCookie_mem_imp rest c o.name hx with h1 | h2
      · exact h.1 h1
      · exact ho h2

lemma nodup_updateCookiesList (pd : String → Int) (jar : List ICookie) (raws : List String)
    (h : (namesOf jar).Nodup) : (namesOf (updateCookiesList pd jar raws).1).Nodup := by
  induction raws generalizing jar with
  | nil => simpa [updateCookiesList] using h
  | cons r rest ih =>
    cases hp : parseSetCookie pd r with
    | none => simpa [updateCookiesList, hp] using h
    | some c => simpa [updateCookiesList, hp] using ih _ (nodup_insertCookie jar c h)

lemma namesOf_clear (now : Int) (jar : List ICookie) :
    namesOf (jar.map fun c => if now ≥ c.expires then { c with value := "" } else c) =
      namesOf jar := by
  unfold namesOf
  rw [List.map_map]
  apply List.map_congr_left
  intro c _
  by_cases hc : now ≥ c.expires <;> simp [hc]

lemma nodup_getCookies (now : Int) (jar : List ICookie)
    (h : (namesOf jar).Nodup) : (namesOf (getCookies now jar).2).Nodup := by
  have h2 : (namesOf (jar.map fun c =>
      if now ≥ c.expires then { c with value := "" } else c)).Nodup := by
    rw [namesOf_clear]
    exact h
  have hs : List.Sublist
      (namesOf ((jar.map fun c =>
        if now ≥ c.expires then { c with value := "" } else c).filter
        (fun c => c.value != "")))
      (namesOf (jar.map fun c => if now ≥ c.expires then { c with value := "" } else c)) :=
    List.Sublist.map _ (List.filter_sublist _)
  exact h2.sublist hs

lemma nodup_applyOp (pd : String → Int) (jar : List ICookie) (op : JarOp)
    (h : (namesOf jar).Nodup) : (namesOf (applyOp pd jar op)).Nodup := by
  cases op with
  | merge raws => exact nodup_updateCookiesList pd jar raws h
  | read now => exact nodup_getCookies now jar h

/-- C9: starting from the empty jar, after any sequence of merge
(`updateCookies` forEach loop, including merges that threw part-way) and
header-read (`getCookies`) operations, the stored cookie names are pairwise
distinct: a merge of a header whose name matches an existing entry
overwrites that entry in place and never inserts a duplicate. -/
theorem jar_names_nodup (pd : String → Int) (ops : List JarOp) :
    (namesOf (runOps pd ops)).Nodup := by
  suffices hgen : ∀ jar, (namesOf jar).Nodup →
      (namesOf (ops.foldl (applyOp pd) jar)).Nodup by
    exact hgen [] (by simp [namesOf])
  induction ops with
  | nil => intro jar h; simpa using h
  | cons op rest ih => intro jar h; exact ih _ (nodup_applyOp pd jar op h)

lemma insertCookie_nil (c : ICookie) : insertCookie [] c = [c] := rfl

lemma insertCookie_cons (o : ICookie) (rest : List ICookie) (c : ICookie) :
    insertCookie (o :: rest) c =
      if o.name = c.name then { o with value := c.value, expires := c.expires } :: rest
      else o :: insertCookie rest c := rfl

lemma findCk_nil (n : String) : findCk n [] = none := rfl

lemma findCk_cons (o : ICookie) (rest : List ICookie) (n : String) :
    findCk n (o :: rest) = if o.name = n then some o else findCk n rest := by
  by_cases h : o.name = n
  · rw [if_pos h]
    exact List.find?_cons_of_pos _ (by simp [h])
  · rw [if_neg h]
    exact List.find?_cons_of_neg _ (by simp [h])

lemma findCk_insertCookie_self (J : List ICookie) (c : ICookie) :
    findCk c.name (insertCookie J c) = some c := by
  induction J with
  | nil => rw [insertCookie_nil, findCk_cons, if_pos rfl]
  | cons o rest ih =>
    rw [insertCookie_cons]
    by_cases ho : o.name = c.name
    · rw [if_pos ho, findCk_cons,
        if_pos (show ({ o with value := c.value, expires := c.expires } : ICookie).name = c.name
          from ho)]
      cases c with
      | mk cn cv ce =>
        cases o with
        | mk d1 d2 d3 =>
          simp only at ho
          subst ho
          rfl
    · rw [if_neg ho, findCk_cons, if_neg ho, ih]

lemma insertCookie_of_findCk (J : List ICookie) (c : ICookie)
    (h : findCk c.name J = some c) : insertCookie J c = J := by
  induction J with
  | nil => rw [findCk_nil] at h; cases h
  | cons o rest ih =>
    rw [insertCookie_cons]
    by_cases ho : o.name = c.name
    · rw [findCk_cons, if_pos ho] at h
      have hoc : o = c := Option.some.inj h
      subst hoc
      rw [if_pos ho]
    · rw [findCk_cons, if_neg ho] at h
      rw [if_neg ho, ih h]

lemma findCk_insertCookie_other (J : List ICookie) (c : ICookie) (n : String)
    (hn : c.name ≠ n) : findCk n (insertCookie J c) = findCk n J := by
  induction J with
  | nil => rw [insertCookie_nil, findCk_cons, if_neg hn, findCk_nil]
  | cons o rest ih =>
    rw [insertCookie_cons]
    by_cases ho : o.name = c.name
    · have hon : ¬ o.name = n := fun hh => hn (ho ▸ hh)
      rw [if_pos ho, findCk_cons,
        if_neg (show ¬ ({ o with value := c.value, expires := c.expires } : ICookie).name = n
          from hon),
        findCk_cons, if_neg hon]
    · rw [if_neg ho, findCk_cons, findCk_cons]
      by_cases hon : o.name = n
      · rw [if_pos hon, if_pos hon]
      · rw [if_neg hon, if_neg hon, ih]

lemma insertCookie_insertCookie_same (J : List ICookie) (c cp : ICookie)
    (h : c.name = cp.name) : insertCookie (insertCookie J cp) c = insertCookie J c := by
  induction J with
  | nil =>
    rw [insertCookie_nil, insertCookie_cons, if_pos h.symm, insertCookie_nil]
    cases c with
    | mk cn cv ce =>
      cases cp with
      | mk d1 d2 d3 =>
        simp only at h
        subst h
        rfl
  | cons o rest ih =>
    by_cases ho : o.name = cp.name
    · have ho2 : o.name = c.name := by rw [ho, ← h]
      rw [insertCookie_cons, if_pos ho, insertCookie_cons,
        if_pos (show ({ o with value := cp.value, expires := cp.expires } : ICookie).name = c.name
          from ho2),
        insertCookie_cons, if_pos ho2]
    · have ho2 : ¬ o.name = c.name := fun hh => ho (hh.trans h)
      rw [insertCookie_cons, if_neg ho, insertCookie_cons, if_neg ho2,
        insertCookie_cons, if_neg ho2, ih]

lemma namesOf_insertCookie_self_mem (J : List ICookie) (c : ICookie) :
    c.name ∈ namesOf (insertCookie J c) := by
  induction J with
  | nil => simp [insertCookie, namesOf]
  | cons o rest ih =>
    rw [insertCookie_cons]
    by_cases ho : o.name = c.name
    · rw [if_pos ho, namesOf_cons]
      exact List.mem_cons.mpr (Or.inl ho.symm)
    · rw [if_neg ho, namesOf_cons]
      exact List.mem_cons.mpr (Or.inr ih)

lemma namesOf_insertCookie_super (J : List ICookie) (c : ICookie) (x : String)
    (h : x ∈ namesOf J) : x ∈ namesOf (insertCookie J c) := by
  induction J with
  | nil => simp [namesOf] at h
  | cons o rest ih =>
    rw [namesOf_cons] at h
    rw [insertCookie_cons]
    rcases List.mem_cons.mp h with h1 | h2
    · by_cases ho : o.name = c.name
      · rw [if_pos ho, namesOf_cons]
        exact List.mem_cons.mpr (Or.inl h1)
      · rw [if_neg ho, namesOf_cons]
        exact List.mem_cons.mpr (Or.inl h1)
    · by_cases ho : o.name = c.name
      · rw [if_pos ho, namesOf_cons]
        exact List.mem_cons.mpr (Or.inr h2)
      · rw [if_neg ho, namesOf_cons]
        exact List.mem_cons.mpr (Or.inr (ih h2))

lemma namesOf_foldl_super (cs : List ICookie) (X : List ICookie) (x : String)
    (h : x ∈ namesOf X) : x ∈ namesOf (cs.foldl insertCookie X) := by
  induction cs generalizing X with
  | nil => exact h
  | cons c rest ih => exact ih _ (namesOf_insertCookie_super X c x h)

lemma findCk_foldl_insertCookie (cs : List ICookie) (X : List ICookie) (n : String)
    (h : ∀ x ∈ cs, x.name ≠ n) :
    findCk n (cs.foldl insertCookie X) = findCk n X := by
  induction cs generalizing X with
  | nil => rfl
  | cons x rest ih =>
    rw [List.foldl_cons]
    rw [ih _ (fun y hy => h y (List.mem_cons_of_mem x hy))]
    exact findCk_insertCookie_other X x n (h x (List.mem_cons_self x rest))

lemma insertCookie_comm (J : List ICookie) (c cq : ICookie)
    (hne : c.name ≠ cq.name) (hmem : c.name ∈ namesOf J) :
    insertCookie (insertCookie J c) cq = insertCookie (insertCookie J cq) c := by
  induction J with
  | nil => simp [namesOf] at hmem
  | cons o rest ih =>
    by_cases ho : o.name = c.name
    · have ho2 : ¬ o.name = cq.name := fun hh => hne (ho ▸ hh)
      rw [insertCookie_cons, if_pos ho, insertCookie_cons,
        if_neg (show ¬ ({ o with value := c.value, expires := c.expires } : ICookie).name = cq.name
          from ho2),
        insertCookie_cons, if_neg ho2, insertCookie_cons, if_pos ho]
    · have hmem2 : c.name ∈ namesOf rest := by
        rw [namesOf_cons] at hmem
        rcases List.mem_cons.mp hmem with h1 | h2
        · exact absurd h1.symm ho
        · exact h2
      by_cases ho3 : o.name = cq.name
      · rw [insertCookie_cons, if_neg ho, insertCookie_cons, if_pos ho3,
          insertCookie_cons, if_pos ho3, insertCookie_cons,
          if_neg (show ¬ ({ o with value := cq.value, expires := cq.expires } : ICookie).name = c.name
            from ho)]
      · rw [insertCookie_cons, if_neg ho, insertCookie_cons, if_neg ho3,
          insertCookie_cons, if_neg ho3, insertCookie_cons, if_neg ho, ih hmem2]

lemma foldl_insertCookie_dup (cs : List ICookie) (M : List ICookie) (c : ICookie)
    (hmem : c.name ∈ namesOf M)
    (hd : (∃ x ∈ cs, x.name = c.name) ∨ insertCookie M c = M) :
    cs.foldl insertCookie (insertCookie M c) = cs.foldl insertCookie M := by
  induction cs generalizing M with
  | nil =>
    rcases hd with ⟨x, hx, _⟩ | he
    · cases hx
    · simpa using he
  | cons x rest ih =>
    by_cases hxc : x.name = c.name
    · rw [List.foldl_cons, List.foldl_cons, insertCookie_insertCookie_same M x c hxc]
    · rw [List.foldl_cons, List.foldl_cons,
        insertCookie_comm M c x (fun hh => hxc hh.symm) hmem]
      refine ih (insertCookie M x) (namesOf_insertCookie_super M x c.name hmem) ?_
      rcases hd with ⟨y, hy, hyn⟩ | he
      · rcases List.mem_cons.mp hy with h1 | h2
        · exact absurd (h1 ▸ hyn) hxc
        · exact Or.inl ⟨y, h2, hyn⟩
      · refine Or.inr (insertCookie_of_findCk _ c ?_)
        have hf : findCk c.name M = some c := by
          rw [← he]
          exact findCk_insertCookie_self M c
        rw [findCk_insertCookie_other M x c.name hxc]
        exact hf

lemma foldl_insertCookie_idem (cs : List ICookie) (J : List ICookie) :
    cs.foldl insertCookie (cs.foldl insertCookie J) = cs.foldl insertCookie J := by
  induction cs generalizing J with
  | nil => rfl
  | cons c rest ih =>
    rw [List.foldl_cons, List.foldl_cons]
    have hmem : c.name ∈ namesOf (rest.foldl insertCookie (insertCookie J c)) :=
      namesOf_foldl_super rest _ c.name (namesOf_insertCookie_self_mem J c)
    have hd : (∃ x ∈ rest, x.name = c.name) ∨
        insertCookie (rest.foldl insertCookie (insertCookie J c)) c =
          rest.foldl insertCookie (insertCookie J c) := by
      by_cases hx : ∃ x ∈ rest, x.name = c.name
      · exact Or.inl hx
      · refine Or.inr (insertCookie_of_findCk _ c ?_)
        push_neg at hx
        rw [findCk_foldl_insertCookie rest _ c.name hx]
        exact findCk_insertCookie_self J c
    calc rest.foldl insertCookie (insertCookie (rest.foldl insertCookie (insertCookie J c)) c)
        = rest.foldl insertCookie (rest.foldl insertCookie (insertCookie J c)) :=
          foldl_insertCookie_dup rest _ c hmem hd
      _ = rest.foldl insertCookie (insertCookie J c) := ih _

lemma updateCookiesList_ok_foldl (pd : String → Int) (jar : List ICookie)
    (raws : List String) (jar1 : List ICookie)
    (h : updateCookiesList pd jar raws = (jar1, true)) :
    ∃ cs, parseAll pd raws = some cs ∧ jar1 = cs.foldl insertCookie jar := by
  induction raws generalizing jar with
  | nil =>
    simp only [updateCookiesList] at h
    exact ⟨[], rfl, (Prod.ext_iff.mp h).1.symm⟩
  | cons r rest ih =>
    cases hp : parseSetCookie pd r with
    | none =>
      simp only [updateCookiesList, hp] at h
      exact absurd (Prod.ext_iff.mp h).2 (by simp)
    | some c =>
      simp only [updateCookiesList, hp] at h
      obtain ⟨cs, hcs, hj⟩ := ih _ h
      refine ⟨c :: cs, ?_, ?_⟩
      · simp [parseAll, hp, hcs]
      · simp [hj, List.foldl_cons]

lemma updateCookiesList_of_parseAll (pd : String → Int) (jar : List ICookie)
    (raws : List String) (cs : List ICookie) (h : parseAll pd raws = some cs) :
    updateCookiesList pd jar raws = (cs.foldl insertCookie jar, true) := by
  induction raws generalizing jar cs with
  | nil =>
    simp only [parseAll] at h
    cases Option.some.inj h
    rfl
  | cons r rest ih =>
    cases hp : parseSetCookie pd r with
    | none => simp [parseAll, hp] at h
    | some c =>
      cases hrest : parseAll pd rest with
      | none => simp [parseAll, hp, hrest] at h
      | some csp =>
        have hcs : c :: csp = cs := by
          have h2 := h
          simp [parseAll, hp, hrest] at h2
          exact h2
        subst hcs
        simp only [updateCookiesList, hp]
        rw [ih _ _ hrest, List.foldl_cons]

lemma takeUntil_single (a : Char) (s : List Char) :
    takeUntil [a] s = s.takeWhile (fun c => c != a) := by
  induction s with
  | nil => rfl
  | cons c rest ih =>
    by_cases h : a = c
    · subst h
      simp [takeUntil, stripLead, List.takeWhile_cons]
    · have h2 : (c != a) = true := by
        have hca : c ≠ a := fun hh => h hh.symm
        simp [hca]
      simp [takeUntil, stripLead, h, List.takeWhile_cons, h2, ih]

lemma takeWhile_append_all {p : Char → Bool} (v b : List Char)
    (hv : ∀ c ∈ v, p c = true) : (v ++ b).takeWhile p = v ++ b.takeWhile p := by
  induction v with
  | nil => rfl
  | cons c rest ih =>
    have hc : p c = true := hv c (List.mem_cons_self c rest)
    simp [List.takeWhile_cons, hc, ih (fun x hx => hv x (List.mem_cons_of_mem c hx))]

lemma takeWhile_append_stop {p : Char → Bool} (v b : List Char)
    (hb : ∃ c ∈ v, p c = false) : (v ++ b).takeWhile p = v.takeWhile p := by
  induction v with
  | nil =>
    rcases hb with ⟨c, hc, _⟩
    cases hc
  | cons c rest ih =>
    by_cases hc : p c = true
    · have hrest : ∃ x ∈ rest, p x = false := by
        rcases hb with ⟨y, hy, hyp⟩
        rcases List.mem_cons.mp hy with h1 | h2
        · rw [h1] at hyp
          rw [hyp] at hc
          cases hc
        · exact ⟨y, h2, hyp⟩
      simp [List.takeWhile_cons, hc, ih hrest]
    · have hcf : p c = false := by revert hc; cases p c <;> simp
      simp [List.takeWhile_cons, hcf]

lemma takeWhile_all {p : Char → Bool} (v : List Char) (hv : ∀ c ∈ v, p c = true) :
    v.takeWhile p = v := by
  induction v with
  | nil => rfl
  | cons c rest ih =>
    simp [List.takeWhile_cons, hv c (List.mem_cons_self c rest),
      ih (fun x hx => hv x (List.mem_cons_of_mem c hx))]

lemma mem_takeWhile_mem {p : Char → Bool} (v : List Char) (c : Char)
    (h : c ∈ v.takeWhile p) : c ∈ v := by
  induction v with
  | nil => simp at h
  | cons x rest ih =>
    rw [List.takeWhile_cons] at h
    by_cases hx : p x
    · rw [if_pos hx] at h
      rcases List.mem_cons.mp h with h1 | h2
      · exact List.mem_cons.mpr (Or.inl h1)
      · exact List.mem_cons.mpr (Or.inr (ih h2))
    · rw [if_neg hx] at h
      cases h

lemma afterFirst_single (a : Char) (n r : List Char) (hn : a ∉ n) :
    afterFirst [a] (n ++ a :: r) = some r := by
  induction n with
  | nil => simp [afterFirst, stripLead]
  | cons c rest ih =>
    have hne : a ≠ c := fun h => hn (h ▸ List.mem_cons_self c rest)
    simp [afterFirst, stripLead, hne, ih (fun h => hn (List.mem_cons_of_mem c h))]

lemma stripLead_self_append (s r : List Char) : stripLead s (s ++ r) = some r := by
  induction s with
  | nil => rfl
  | cons c rest ih => simp [stripLead, ih]

lemma afterFirst_append2 (sep a b : List Char)
    (ha : ∀ t, t ≠ [] → List.IsSuffix t a → stripLead sep (t ++ b) = none) :
    afterFirst sep (a ++ b) = afterFirst sep b := by
  induction a with
  | nil => rfl
  | cons x rest ih =>
    have h1 : stripLead sep (x :: (rest ++ b)) = none :=
      ha (x :: rest) (by simp) List.suffix_rfl
    have h2 : afterFirst sep ((x :: rest) ++ b) = afterFirst sep (rest ++ b) := by
      rw [List.cons_append]
      simp only [afterFirst, h1]
    rw [h2]
    exact ih (fun t ht hs => ha t ht (hs.trans (List.suffix_cons x rest)))

lemma stripLead_isSome_mono (sep t b : List Char) (hlen : sep.length ≤ t.length)
    (h : (stripLead sep (t ++ b)).isSome = true) : (stripLead sep t).isSome = true := by
  induction sep generalizing t with
  | nil => rfl
  | cons p ps ih =>
    cases t with
    | nil => simp at hlen
    | cons x tr =>
      by_cases hp : p = x
      · subst hp
        rw [List.cons_append] at h
        simp only [stripLead, if_pos rfl] at h ⊢
        exact ih tr (by simpa using hlen) h
      · rw [List.cons_append] at h
        simp [stripLead, hp] at h

lemma stripLead_short_mem (sep t : List Char) (c : Char) (rest : List Char)
    (hlen : t.length < sep.length)
    (h : (stripLead sep (t ++ c :: rest)).isSome = true) : c ∈ sep := by
  induction t generalizing sep with
  | nil =>
    cases sep with
    | nil => simp at hlen
    | cons p ps =>
      by_cases hp : p = c
      · exact hp ▸ List.mem_cons_self p ps
      · simp [stripLead, hp] at h
  | cons x tr ih =>
    cases sep with
    | nil => simp at hlen
    | cons p ps =>
      by_cases hp : p = x
      · subst hp
        rw [List.cons_append] at h
        simp only [stripLead, if_pos rfl] at h
        exact List.mem_cons_of_mem _ (ih ps (by simpa using hlen) h)
      · rw [List.cons_append] at h
        simp [stripLead, hp] at h

lemma includes_append_left (pre t sep : List Char)
    (h : (stripLead sep t).isSome = true) : listIncludes (pre ++ t) sep = true := by
  induction pre with
  | nil =>
    cases t with
    | nil =>
      cases sep with
      | nil => rfl
      | cons p ps => simp [stripLead] at h
    | cons x xs => simp [listIncludes, leadsWith, h]
  | cons y pre ih => simp [listIncludes, ih]

lemma no_lead_of_not_includes (sep A : List Char) (c0 : Char) (tail : List Char)
    (hnot : listIncludes A sep = false) (hc : c0 ∉ sep) :
    ∀ t, List.IsSuffix t A → stripLead sep (t ++ c0 :: tail) = none := by
  intro t hs
  cases hsl : stripLead sep (t ++ c0 :: tail) with
  | none => rfl
  | some r =>
    exfalso
    have hsome : (stripLead sep (t ++ c0 :: tail)).isSome = true := by simp [hsl]
    by_cases hlen : sep.length ≤ t.length
    · have h2 := stripLead_isSome_mono sep t (c0 :: tail) hlen hsome
      obtain ⟨pre, hpre⟩ := hs
      rw [← hpre] at hnot
      rw [includes_append_left pre t sep h2] at hnot
      cases hnot
    · exact hc (stripLead_short_mem sep t c0 tail (Nat.lt_of_not_le hlen) hsome)

lemma takeUntil_of_not_includes (sep s : List Char)
    (h : listIncludes s sep = false) : takeUntil sep s = s := by
  induction s with
  | nil => rfl
  | cons c rest ih =>
    have h2 : leadsWith sep (c :: rest) = false ∧ listIncludes rest sep = false := by
      simpa [listIncludes] using h
    have hnone : (stripLead sep (c :: rest)).isSome = false := h2.1
    simp [takeUntil, hnone, ih h2.2]

/-- C4 amended: for a raw `set-cookie` value of shape
`<n>=<v>; expires=<d>` (no `=` in the name, no `;` in the value or date,
and no `expires=` occurring before the expiry attribute), the stored
cookie's name is the trimmed name, its expiry is the date oracle applied to
the trimmed date, and its value is the trimmed part of `<v>` before the
first `=` inside `<v>`: a value containing `=` is truncated there
(`split("=")[1]`), it is NOT kept up to the first `;`. -/
theorem parseSetCookie_shape (pd : String → Int) (n v d : List Char)
    (hn : '=' ∉ n) (hv : ';' ∉ v) (hd : ';' ∉ d)
    (hnv : listIncludes (n ++ ('=' :: v)) expiresChars = false)
    (hde : listIncludes d expiresChars = false) :
    parseSetCookie pd
      (String.mk (n ++ ('=' :: (v ++ (';' :: (' ' :: (expiresChars ++ d))))))) =
      some ⟨String.mk (trimL n),
            String.mk (trimL (v.takeWhile (fun c => c != '='))),
            pd (String.mk (trimL d))⟩ := by
  have hppos : ∀ c ∈ n, (c != '=') = true := by
    intro c hc
    have hcne : c ≠ '=' := fun h => hn (h ▸ hc)
    simp [hcne]
  have hname : takeUntil eqChars (n ++ ('=' :: (v ++ (';' :: (' ' :: (expiresChars ++ d)))))) = n := by
    rw [show eqChars = ['='] from rfl, takeUntil_single,
      takeWhile_append_all n ('=' :: (v ++ (';' :: (' ' :: (expiresChars ++ d))))) hppos]
    simp [List.takeWhile_cons]
  have hafter : afterFirst eqChars (n ++ ('=' :: (v ++ (';' :: (' ' :: (expiresChars ++ d)))))) =
      some (v ++ (';' :: (' ' :: (expiresChars ++ d)))) :=
    afterFirst_single '=' n (v ++ (';' :: (' ' :: (expiresChars ++ d)))) hn
  have hvalue : takeUntil semiChars
      (takeUntil eqChars (v ++ (';' :: (' ' :: (expiresChars ++ d))))) =
      v.takeWhile (fun c => c != '=') := by
    rw [show eqChars = ['='] from rfl, takeUntil_single]
    by_cases hin : '=' ∈ v
    · have hstop : ∃ c ∈ v, (c != '=') = false := ⟨'=', hin, by simp⟩
      rw [takeWhile_append_stop v _ hstop,
        show semiChars = [';'] from rfl, takeUntil_single]
      apply takeWhile_all
      intro c hc
      have hcv : c ∈ v := mem_takeWhile_mem v c hc
      have hcne : c ≠ ';' := fun h => hv (h ▸ hcv)
      simp [hcne]
    · have hall : ∀ c ∈ v, (c != '=') = true := by
        intro c hc
        have hcne : c ≠ '=' := fun h => hin (h ▸ hc)
        simp [hcne]
      rw [takeWhile_append_all v _ hall]
      have hpre : (';' :: (' ' :: (expiresChars ++ d))).takeWhile (fun c => c != '=') =
          [';', ' ', 'e', 'x', 'p', 'i', 'r', 'e', 's'] := rfl
      rw [hpre, show semiChars = [';'] from rfl, takeUntil_single]
      have hall2 : ∀ c ∈ v, (c != ';') = true := by
        intro c hc
        have hcne : c ≠ ';' := fun h => hv (h ▸ hc)
        simp [hcne]
      rw [takeWhile_append_all v _ hall2]
      simp [List.takeWhile_cons, takeWhile_all v hall]
  have hsc : ';' ∉ expiresChars := by decide
  have hexp : afterFirst expiresChars
      (n ++ ('=' :: (v ++ (';' :: (' ' :: (expiresChars ++ d)))))) = some d := by
    have hrw : n ++ ('=' :: (v ++ (';' :: (' ' :: (expiresChars ++ d))))) =
        (n ++ ('=' :: v)) ++ (';' :: (' ' :: (expiresChars ++ d))) := by
      simp
    rw [hrw, afterFirst_append2 expiresChars (n ++ ('=' :: v)) _
      (fun t _ hs => no_lead_of_not_includes expiresChars (n ++ ('=' :: v)) ';'
        (' ' :: (expiresChars ++ d)) hnv hsc t hs)]
    have h1 : stripLead expiresChars (';' :: (' ' :: (expiresChars ++ d))) = none := rfl
    have h2 : stripLead expiresChars (' ' :: (expiresChars ++ d)) = none := rfl
    calc afterFirst expiresChars (';' :: (' ' :: (expiresChars ++ d)))
        = afterFirst expiresChars (' ' :: (expiresChars ++ d)) := by
          simp only [afterFirst, h1]
      _ = afterFirst expiresChars (expiresChars ++ d) := by
          simp only [afterFirst, h2]
      _ = some d := by
          show afterFirst expiresChars ('e' :: ("xpires=".toList ++ d)) = some d
          have h3 : stripLead expiresChars ('e' :: ("xpires=".toList ++ d)) = some d :=
            stripLead_self_append expiresChars d
          simp only [afterFirst, h3]
  have hdexp : takeUntil semiChars (takeUntil expiresChars d) = d := by
    rw [takeUntil_of_not_includes expiresChars d hde,
      show semiChars = [';'] from rfl, takeUntil_single]
    apply takeWhile_all
    intro c hc
    have hcne : c ≠ ';' := fun h => hd (h ▸ hc)
    simp [hcne]
  simp only [parseSetCookie, String.toList]
  rw [hafter, hexp]
  simp [hname, hvalue, hdexp]

/-- C4 amended witness: the well-formed header `sid=tok; expires=Wed`
parses to name `sid`, value `tok` and expiry `pd0` of `Wed`. -/
theorem parseSetCookie_shape_witness :
    parseSetCookie pd0 "sid=tok; expires=Wed" = some ⟨"sid", "tok", pd0 "Wed"⟩ :=
  parseSetCookie_shape pd0 "sid".toList "tok".toList "Wed".toList
    (by decide) (by decide) (by decide) (by decide) (by decide)

/-- C6: merge is idempotent.  If merging the well-formed raw values `raws`
into any jar succeeded and produced `jar1`, then merging the same values
again into `jar1` succeeds and leaves `jar1` exactly as it is - hence the
active set (at any read time) is the same after one and after two merges. -/
theorem updateCookies_idempotent (pd : String → Int) (jar : List ICookie)
    (raws : List String) (jar1 : List ICookie)
    (h : updateCookiesList pd jar raws = (jar1, true)) :
    updateCookiesList pd jar1 raws = (jar1, true) := by
  obtain ⟨cs, hcs, hj⟩ := updateCookiesList_ok_foldl pd jar raws jar1 h
  rw [updateCookiesList_of_parseAll pd jar1 raws cs hcs]
  subst hj
  rw [foldl_insertCookie_idem]

/-- C6 witness: merging the three headers below into the empty jar gives
the two-cookie jar shown; merging them again into that jar keeps it
unchanged. -/
theorem updateCookies_idempotent_witness :
    updateCookiesList pd0 [⟨"a", "c", 0⟩, ⟨"b", "z", 0⟩]
        ["a=b; expires=x", "a=c; expires=y", "b=z; expires=w"] =
      ([⟨"a", "c", 0⟩, ⟨"b", "z", 0⟩], true) :=
  updateCookies_idempotent pd0 []
    ["a=b; expires=x", "a=c; expires=y", "b=z; expires=w"]
    [⟨"a", "c", 0⟩, ⟨"b", "z", 0⟩] (by decide)

lemma str_append_empty (s : String) : s ++ "" = s := by
  apply String.ext
  simp [String.data_append]

lemma updateCookiesList_ok_of_parses (pd : String → Int) (jar : List ICookie)
    (raws : List String) (h : ∀ raw ∈ raws, (parseSetCookie pd raw).isSome = true) :
    (updateCookiesList pd jar raws).2 = true := by
  induction raws generalizing jar with
  | nil => rfl
  | cons r rest ih =>
    cases hp : parseSetCookie pd r with
    | none =>
      have h2 := h r (List.mem_cons_self r rest)
      rw [hp] at h2
      cases h2
    | some c =>
      simp only [updateCookiesList, hp]
      exact ih _ (fun raw hr => h raw (List.mem_cons_of_mem r hr))

lemma updateCookies_ok_of_wf (pd : String → Int) (jar : List ICookie) (r : Resp)
    (h : wfResp pd r) : (updateCookies pd jar r.setCookie).2 = true := by
  cases hsc : r.setCookie with
  | none => rfl
  | some raws =>
    exact updateCookiesList_ok_of_parses pd jar raws (fun raw hr => h raws hsc raw hr)

/-- C7: token extraction from the login page: the double-quoted form
`name="csrfmiddlewaretoken" value="abc123"` yields `abc123`, the
single-quoted form yields `xyz789`, and whenever the pattern finds no match
in the body (`findMatch = none`), the token is `""` and `login()` still
proceeds to the POST without error: its trace is the login-page GET
followed by the credentials POST with an empty token field. -/
theorem token_extraction_cases (base lp u p m : String) (pd : String → Int)
    (tp : Req → Resp) (now : Int) (hm : m ≠ "")
    (hnone : ∀ q, (tp q).setCookie = none)
    (hfind : findMatch m.toList
      ((tp ⟨base ++ lp, "GET", none, "", "follow", none⟩).text).toList = none) :
    extractToken "csrfmiddlewaretoken"
        "<input name=\"csrfmiddlewaretoken\" value=\"abc123\">" = "abc123" ∧
    extractToken "csrfmiddlewaretoken"
        "<input name='csrfmiddlewaretoken' value='xyz789'>" = "xyz789" ∧
    extractToken m (tp ⟨base ++ lp, "GET", none, "", "follow", none⟩).text = "" ∧
    login ⟨base, u, p, lp, "sessionid", some m⟩ tp pd now [] =
      ⟨[], true, [⟨base ++ lp, "GET", none, "", "follow", none⟩,
        ⟨base ++ lp, "POST", some (m ++ "=" ++ "&username=" ++ u ++ "&password=" ++ p),
          "", "manual", some "application/x-www-form-urlencoded"⟩]⟩ := by
  have hext : extractToken m (tp ⟨base ++ lp, "GET", none, "", "follow", none⟩).text = "" := by
    have hfind2 := hfind
    simp only [String.toList] at hfind2
    simp [extractToken, String.toList, hfind2]
  refine ⟨rfl, rfl, hext, ?_⟩
  have htr : truthy (some m) = true := by simp [truthy, hm]
  have hjs : jsStr (some m) = m := rfl
  have hok : ∀ jar q, (updateCookies pd jar (tp q).setCookie).2 = true :=
    fun jar q => by rw [hnone q]; rfl
  have hjar : ∀ jar q, (updateCookies pd jar (tp q).setCookie).1 = jar :=
    fun jar q => by rw [hnone q]; rfl
  have hg1 : (getCookies now []).1 = "" := rfl
  have hg2 : (getCookies now []).2 = [] := rfl
  simp only [login, loginPost, fetchSkip, htr, hjs, hg1, hg2, hok, hjar, hext, if_true,
    str_append_empty]
  rfl

/-- C7 witness: concrete instantiation with a transport that sets no
cookies and returns a body without any match for the token name `tok`. -/
theorem token_extraction_cases_witness :
    extractToken "csrfmiddlewaretoken"
        "<input name=\"csrfmiddlewaretoken\" value=\"abc123\">" = "abc123" ∧
    extractToken "csrfmiddlewaretoken"
        "<input name='csrfmiddlewaretoken' value='xyz789'>" = "xyz789" ∧
    extractToken "tok" "no match here" = "" ∧
    login ⟨"b", "u", "p", "/l", "sessionid", some "tok"⟩
        (fun _ => ⟨none, "no match here"⟩) pd0 0 [] =
      ⟨[], true, [⟨"b/l", "GET", none, "", "follow", none⟩,
        ⟨"b/l", "POST", some "tok=&username=u&password=p", "", "manual",
          some "application/x-www-form-urlencoded"⟩]⟩ :=
  token_extraction_cases "b" "/l" "u" "p" "tok" pd0 (fun _ => ⟨none, "no match here"⟩) 0
    (by decide) (fun _ => rfl) (by decide)

/-- C8: with `sessionidCookieName = "sessionid"`,
`middlewaretokenName = "csrfmiddlewaretoken"` and an empty jar, the first
`fetch("/protected")` with the login check enabled issues exactly one login
handshake - a GET to the login path, then a POST to the login path with
body `csrfmiddlewaretoken=<extracted token>&username=<u>&password=<p>` -
before the real GET to `/protected`, for any transport whose `set-cookie`
values are well formed. -/
theorem first_request_login_handshake (base lp u p : String) (pd : String → Int)
    (tp : Req → Resp) (now : Int) (hw : ∀ q, wfResp pd (tp q)) :
    (fetchMain ⟨base, u, p, lp, "sessionid", some "csrfmiddlewaretoken"⟩ tp pd now []
        "/protected" "GET" none "follow" none).trace.map reqKey =
      [(base ++ lp, "GET", none, "follow"),
       (base ++ lp, "POST",
         some ("csrfmiddlewaretoken=" ++
           extractToken "csrfmiddlewaretoken"
             (tp ⟨base ++ lp, "GET", none, "", "follow", none⟩).text ++
           "&username=" ++ u ++ "&password=" ++ p), "manual"),
       (base ++ "/protected", "GET", none, "follow")] := by
  have hok : ∀ jar q, (updateCookies pd jar (tp q).setCookie).2 = true :=
    fun jar q => updateCookies_ok_of_wf pd jar (tp q) (hw q)
  have hg1 : (getCookies now []).1 = "" := rfl
  have hg2 : (getCookies now []).2 = [] := rfl
  have hstr : strIncludes "" "sessionid" = false := rfl
  have htr : truthy (some "csrfmiddlewaretoken") = true := rfl
  have hjs : jsStr (some "csrfmiddlewaretoken") = "csrfmiddlewaretoken" := rfl
  have hlit : ∀ t : String, "csrfmiddlewaretoken" ++ "=" ++ t = "csrfmiddlewaretoken=" ++ t :=
    fun t => rfl
  simp only [fetchMain, login, loginPost, fetchSkip, hg1, hg2, hstr, htr, hjs, hok,
    Bool.false_eq_true, if_false, if_true, hlit, List.map_cons, List.map_nil, reqKey,
    List.cons_append, List.nil_append, List.append_nil]

/-- C8 witness: concrete instantiation whose login page carries the token
`tok1`; the handshake trace and POST body are fully evaluated. -/
theorem first_request_login_handshake_witness :
    (fetchMain ⟨"http://h", "u", "p", "/login", "sessionid", some "csrfmiddlewaretoken"⟩
        (fun _ => ⟨none, "name=\"csrfmiddlewaretoken\" value=\"tok1\""⟩) pd0 0 []
        "/protected" "GET" none "follow" none).trace.map reqKey =
      [("http://h/login", "GET", none, "follow"),
       ("http://h/login", "POST",
         some "csrfmiddlewaretoken=tok1&username=u&password=p", "manual"),
       ("http://h/protected", "GET", none, "follow")] :=
  first_request_login_handshake "http://h" "/login" "u" "p" pd0
    (fun _ => ⟨none, "name=\"csrfmiddlewaretoken\" value=\"tok1\""⟩) 0
    (fun _ _ h => nomatch h)

/-- C10: when a response carries no `set-cookie` header at all
(src/index.ts lines 125-129), the cookie-update step returns the jar
unchanged and succeeds. -/
theorem updateCookies_no_header_frame (pd : String → Int) (jar : List ICookie) :
    updateCookies pd jar none = (jar, true) :=
  rfl

end WebLogin
